import Mathlib

/-!
Verification of the nfx-stringutils core: the lazy string splitter
(`Splitter.inl`) and the network-address validators and endpoint parser
(`Utils.inl`), shallowly embedded over `List Char`.
-/

set_option maxHeartbeats 1000000

/-! ## Character classification (Utils.inl) -/

/-- Code point of a character, the value a C++ `char` byte holds. -/
def charVal (c : Char) : Nat := c.toNat

/-- Embeds `isDigit` from Utils.inl: true exactly on '0'..'9'. -/
def isDigit (c : Char) : Bool := decide (48 ≤ charVal c ∧ charVal c ≤ 57)

/-- Embeds `isAlpha` from Utils.inl: 'a'..'z' or 'A'..'Z'. -/
def isAlpha (c : Char) : Bool :=
  decide ((97 ≤ charVal c ∧ charVal c ≤ 122) ∨ (65 ≤ charVal c ∧ charVal c ≤ 90))

/-- Embeds `isAlphaNumeric` from Utils.inl. -/
def isAlphaNumeric (c : Char) : Bool := isAlpha c || isDigit c

/-- The hex-digit test inlined in `isIPv6Address` (Utils.inl line 503). -/
def isHexDigit (c : Char) : Bool :=
  decide ((48 ≤ charVal c ∧ charVal c ≤ 57) ∨ (97 ≤ charVal c ∧ charVal c ≤ 102) ∨
    (65 ≤ charVal c ∧ charVal c ≤ 70))

/-- Numeric value of a digit character, `c - '0'` in the source. -/
def digitVal (c : Char) : Nat := charVal c - 48

/-! ## Splitter (Splitter.inl) -/

/-- Cursor state of `Splitter::Iterator`: `m_start`, `m_end`, `m_isAtEnd`.
The parent splitter's string and delimiter are passed explicitly. -/
structure Iter where
  start : Nat
  stop : Nat
  isAtEnd : Bool

/-- Index of the first occurrence of `d` in the list, or the length when
absent — the `find` result with `npos` already collapsed to `length()`,
as both call sites of `find` in Splitter.inl do. -/
def firstIdx (d : Char) : List Char → Nat
  | [] => 0
  | c :: rest => if c = d then 0 else firstIdx d rest + 1

/-- `str.find(d, i)` with the `npos → length` collapse applied. -/
def findFrom (s : List Char) (d : Char) (i : Nat) : Nat :=
  i + firstIdx d (s.drop i)

/-- Embeds `Splitter::Iterator::Iterator(splitter, at_end)`:
`m_isAtEnd = at_end || str.empty()`; a live cursor starts at 0 with
`m_end` at the first delimiter (or the length). -/
def mkIter (s : List Char) (d : Char) (at_end : Bool) : Iter :=
  if at_end || s.isEmpty then ⟨0, 0, true⟩
  else ⟨0, findFrom s d 0, false⟩

/-- Embeds `operator++`: `m_start = m_end + 1`; past the length the cursor
becomes exhausted (fields otherwise untouched), else `m_end` moves to the
next delimiter or the length and `m_isAtEnd` is left as it was. -/
def iterNext (s : List Char) (d : Char) (it : Iter) : Iter :=
  let st := it.stop + 1
  if s.length < st then ⟨st, it.stop, true⟩
  else ⟨st, findFrom s d st, it.isAtEnd⟩

/-- Embeds `operator*`: `str.substr(m_start, m_end - m_start)`. -/
def iterDeref (s : List Char) (it : Iter) : List Char :=
  (s.drop it.start).take (it.stop - it.start)

/-- Embeds `operator==`: the source compares only the two exhausted flags. -/
def iterEq (it1 it2 : Iter) : Bool := it1.isAtEnd == it2.isAtEnd

/-- `n` applications of `operator++`. -/
def iterNextN (s : List Char) (d : Char) : Nat → Iter → Iter
  | 0, it => it
  | n + 1, it => iterNext s d (iterNextN s d n it)

/-- Fueled range-for loop over the splitter: collect `*it` while
`it != end()`, advancing with `operator++`. -/
def collectN (s : List Char) (d : Char) : Nat → Iter → List (List Char)
  | 0, _ => []
  | fuel + 1, it =>
    if iterEq it (mkIter s d true) then []
    else iterDeref s it :: collectN s d fuel (iterNext s d it)

/-- All segments yielded by iterating `split(s, d)` from `begin()` to
`end()`. The fuel `s.length + 2` is shown sufficient in the lemmas. -/
def segments (s : List Char) (d : Char) : List (List Char) :=
  collectN s d (s.length + 2) (mkIter s d false)

/-- Reference split on one delimiter, keeping empty segments. -/
def splitList (d : Char) : List Char → List (List Char)
  | [] => [[]]
  | c :: rest =>
    if c = d then [] :: splitList d rest
    else
      match splitList d rest with
      | [] => [[c]]
      | g :: gs => (c :: g) :: gs

/-- Concatenation with one copy of `d` re-inserted between segments. -/
def joinWith (d : Char) : List (List Char) → List Char
  | [] => []
  | [g] => g
  | g :: gs => g ++ d :: joinWith d gs

/-! ## IPv4 validation (Utils.inl `isIPv4Address`) -/

/-- The scanning loop of `isIPv4Address` over the remaining characters,
carrying `octetCount`, `currentOctet`, `digitCount`; at end of input the
source requires exactly 3 dots, a non-empty final group and value ≤ 255. -/
def ipv4Scan : List Char → Nat → Nat → Nat → Bool
  | [], oc, co, dc => decide (oc = 3 ∧ 0 < dc ∧ co ≤ 255)
  | c :: rest, oc, co, dc =>
    if c = '.' then
      if dc = 0 ∨ 255 < co then false
      else ipv4Scan rest (oc + 1) 0 0
    else if isDigit c then
      if dc = 1 ∧ co = 0 then false
      else if 3 < dc + 1 ∨ 255 < co * 10 + digitVal c then false
      else ipv4Scan rest oc (co * 10 + digitVal c) (dc + 1)
    else false

/-- Embeds `isIPv4Address` from Utils.inl: empty or longer than 15 is
rejected up front, otherwise the single-pass scan runs from a fresh state. -/
def isIPv4Address (s : List Char) : Bool :=
  if s = [] ∨ 15 < s.length then false else ipv4Scan s 0 0 0

/-- Decimal value accumulated left-to-right on top of `a`, exactly the
`value * 10 + (c - '0')` accumulation the scanners use. -/
def valAcc (a : Nat) (l : List Char) : Nat :=
  l.foldl (fun x c => x * 10 + digitVal c) a

/-- Decimal value of a digit string. -/
def decimalVal (l : List Char) : Nat := valAcc 0 l

/-- Spec-side octet group: a non-empty decimal numeral with value in
[0,255] and no leading zero (the single character "0" is allowed). -/
def isOctetGroup (g : List Char) : Bool :=
  decide (g ≠ [] ∧ g.all isDigit = true ∧ (g.length = 1 ∨ g.head? ≠ some '0') ∧
    decimalVal g ≤ 255)

/-- Spec-side IPv4 grammar, following the claim: non-empty, length ≤ 15,
exactly 4 dot-separated groups (so exactly 3 dots; leading/trailing/double
dots give an empty group, rejected by `isOctetGroup`), every group a valid
octet. -/
def ipv4Spec (s : List Char) : Prop :=
  s ≠ [] ∧ s.length ≤ 15 ∧ (splitList '.' s).length = 4 ∧
    ∀ g ∈ splitList '.' s, isOctetGroup g = true

/-- The digit-consuming part of `ipv4Scan` within one octet group,
returning the final `(currentOctet, digitCount)` or `none` on rejection. -/
def groupScan : List Char → Nat → Nat → Option (Nat × Nat)
  | [], co, dc => some (co, dc)
  | c :: rest, co, dc =>
    if isDigit c then
      if dc = 1 ∧ co = 0 then none
      else if 3 < dc + 1 ∨ 255 < co * 10 + digitVal c then none
      else groupScan rest (co * 10 + digitVal c) (dc + 1)
    else none

/-! ## IPv6 validation (Utils.inl `isIPv6Address`) -/

/-- Loop state of `isIPv6Address`. -/
structure V6St where
  groupCount : Nat
  digitCount : Nat
  hasDoubleColon : Bool
  prevWasColon : Bool
  groupStartPos : Nat

/-- The scanning loop of `isIPv6Address`: `s` is the full string (needed
for the embedded-IPv4 slice), the second argument the unscanned suffix,
the third the current index. Early `return false` is `none`; reaching the
end of the loop or a `break` ('.'-tail or '%'-zone) yields the state. -/
def scan6 (s : List Char) : List Char → Nat → V6St → Option V6St
  | [], _, st => some st
  | c :: rest, i, st =>
    if c = ':' then
      if st.prevWasColon then
        if st.hasDoubleColon then none
        else scan6 s rest (i + 1)
          { st with
            hasDoubleColon := true
            digitCount := 0
            prevWasColon := true
            groupStartPos := i + 1 }
      else
        scan6 s rest (i + 1)
          { st with
            groupCount := if 0 < st.digitCount then st.groupCount + 1 else st.groupCount
            digitCount := 0
            prevWasColon := true
            groupStartPos := i + 1 }
    else if isHexDigit c then
      if 4 < st.digitCount + 1 then none
      else scan6 s rest (i + 1) { st with digitCount := st.digitCount + 1, prevWasColon := false }
    else if c = '.' then
      if isIPv4Address ((s.drop st.groupStartPos).takeWhile (fun x => !(x == '%'))) then
        some { st with groupCount := st.groupCount + 2 }
      else none
    else if c = '%' then
      some { st with
        groupCount := if 0 < st.digitCount then st.groupCount + 1 else st.groupCount }
    else none

/-- Embeds `isIPv6Address` from Utils.inl, including the post-loop
increment of `groupCount` guarded only by `digitCount > 0` and the
absence of a '.' in the whole string, and the final group-count rule. -/
def isIPv6Address (s : List Char) : Bool :=
  if s = [] ∨ 45 < s.length then false
  else
    match scan6 s s 0 ⟨0, 0, false, false, 0⟩ with
    | none => false
    | some st =>
      let gc := if 0 < st.digitCount ∧ '.' ∉ s then st.groupCount + 1 else st.groupCount
      decide ((gc = 8 ∧ st.hasDoubleColon = false) ∨ (gc < 8 ∧ st.hasDoubleColon = true))

/-- True when the list contains two adjacent colons somewhere. -/
def hasColonPair : List Char → Bool
  | [] => false
  | [_] => false
  | a :: b :: rest => (a == ':' && b == ':') || hasColonPair (b :: rest)

/-! ## Hostname and port validation (Utils.inl) -/

/-- The scanning loop of `isValidHostname`, carrying `labelLength`,
`prevWasDot` and the previously seen character (the source reads
`str[i-1]`, only ever on a non-empty current label); the final check is
`!prevWasDot && labelLength > 0 && last != '-'`. -/
def hostScan : List Char → Nat → Bool → Char → Bool
  | [], ll, pwd, pc => decide (pwd = false ∧ 0 < ll ∧ pc ≠ '-')
  | c :: rest, ll, pwd, pc =>
    if c = '.' then
      if pwd = true ∨ ll = 0 then false
      else if pc = '-' then false
      else hostScan rest 0 true c
    else if isAlphaNumeric c || decide (c = '-') then
      if pwd = true ∧ c = '-' then false
      else if 63 < ll + 1 then false
      else hostScan rest (ll + 1) false c
    else false

/-- Embeds `isValidHostname` from Utils.inl (the initial previous
character is never read because `prevWasDot` starts true). -/
def isValidHostname (s : List Char) : Bool :=
  if s = [] ∨ 253 < s.length then false else hostScan s 0 true ' '

/-- The accumulation loop of `isValidPort`, rejecting non-digits and any
running value above 65535. -/
def portGo : List Char → Nat → Bool
  | [], _ => true
  | c :: rest, pv =>
    if isDigit c = false then false
    else if 65535 < pv * 10 + digitVal c then false
    else portGo rest (pv * 10 + digitVal c)

/-- Embeds `isValidPort(string_view)` from Utils.inl. -/
def isValidPort (s : List Char) : Bool :=
  if s = [] ∨ 5 < s.length then false else portGo s 0

/-! ## Endpoint parsing (Utils.inl `tryParseEndpoint`) -/

/-- Embeds `tryParseUInt`, a wrapper over `std::from_chars` for
`uint32_t`: empty input stores 0 and fails; otherwise the maximal digit
prefix is parsed; no digits or overflow past `2^32 - 1` leave the result
untouched and fail; a partial parse stores the prefix value but fails
because the wrapper demands the whole string be consumed. -/
def tryParseUInt (s : List Char) (r0 : Nat) : Bool × Nat :=
  if s = [] then (false, 0)
  else
    if s.takeWhile isDigit = [] then (false, r0)
    else if 4294967296 ≤ decimalVal (s.takeWhile isDigit) then (false, r0)
    else if (s.takeWhile isDigit).length = s.length then (true, decimalVal (s.takeWhile isDigit))
    else (false, decimalVal (s.takeWhile isDigit))

/-- Index of the last occurrence of `d`, `rfind` with `npos` as `none`. -/
def rfindIdx (d : Char) : List Char → Option Nat
  | [] => none
  | c :: rest =>
    match rfindIdx d rest with
    | some j => some (j + 1)
    | none => if c = d then some 0 else none

/-- Embeds `tryParseEndpoint` from Utils.inl, threading the two output
parameters: the triple is (return value, host, port), where host/port
keep their incoming values until the source assigns them — host as soon
as a closing bracket (bracketed form) or the last colon (plain form) is
located, port only after the port substring parses. -/
def tryParseEndpoint (e host0 : List Char) (port0 : Nat) : Bool × List Char × Nat :=
  if e = [] then (false, host0, port0)
  else if e.head? = some '[' then
    if firstIdx ']' e = e.length then (false, host0, port0)
    else if firstIdx ']' e + 1 < e.length then
      if e.get? (firstIdx ']' e + 1) ≠ some ':' then
        (false, (e.drop 1).take (firstIdx ']' e - 1), port0)
      else if isValidPort (e.drop (firstIdx ']' e + 2)) = false then
        (false, (e.drop 1).take (firstIdx ']' e - 1), port0)
      else if (tryParseUInt (e.drop (firstIdx ']' e + 2)) 0).1 = false ∨
          65535 < (tryParseUInt (e.drop (firstIdx ']' e + 2)) 0).2 then
        (false, (e.drop 1).take (firstIdx ']' e - 1), port0)
      else
        (isIPv6Address ((e.drop 1).take (firstIdx ']' e - 1)),
          (e.drop 1).take (firstIdx ']' e - 1),
          (tryParseUInt (e.drop (firstIdx ']' e + 2)) 0).2)
    else (false, (e.drop 1).take (firstIdx ']' e - 1), port0)
  else
    match rfindIdx ':' e with
    | none => (false, host0, port0)
    | some cp =>
      if e.take cp = [] ∨ e.drop (cp + 1) = [] then (false, e.take cp, port0)
      else if isValidPort (e.drop (cp + 1)) = false then (false, e.take cp, port0)
      else if (tryParseUInt (e.drop (cp + 1)) 0).1 = false ∨
          65535 < (tryParseUInt (e.drop (cp + 1)) 0).2 then
        (false, e.take cp, port0)
      else if (e.take cp).all (fun c => isDigit c || c == '.') then
        (isIPv4Address (e.take cp), e.take cp, (tryParseUInt (e.drop (cp + 1)) 0).2)
      else
        (isValidHostname (e.take cp), e.take cp, (tryParseUInt (e.drop (cp + 1)) 0).2)

/-! ## Lemmas about the splitter -/

theorem firstIdx_le_length (d : Char) (l : List Char) : firstIdx d l ≤ l.length := by
  induction l with
  | nil => simp [firstIdx]
  | cons c rest ih =>
    simp only [firstIdx, List.length_cons]
    split
    · omega
    · omega

theorem firstIdx_of_not_mem (d : Char) (l : List Char) (h : d ∉ l) :
    firstIdx d l = l.length := by
  induction l with
  | nil => simp [firstIdx]
  | cons c rest ih =>
    simp only [List.mem_cons, not_or] at h
    simp only [firstIdx, List.length_cons]
    rw [if_neg (fun hc => h.1 hc.symm), ih h.2]

theorem firstIdx_lt_of_mem (d : Char) (l : List Char) (h : d ∈ l) :
    firstIdx d l < l.length := by
  induction l with
  | nil => simp at h
  | cons c rest ih =>
    simp only [firstIdx, List.length_cons]
    split
    · omega
    · rename_i hc
      rcases List.mem_cons.mp h with h1 | h2
      · exact absurd h1.symm hc
      · exact Nat.succ_lt_succ (ih h2)

theorem firstIdx_decomp (d : Char) (l : List Char) (h : d ∈ l) :
    l = l.take (firstIdx d l) ++ d :: l.drop (firstIdx d l + 1) := by
  induction l with
  | nil => simp at h
  | cons c rest ih =>
    by_cases hc : c = d
    · subst hc
      simp [firstIdx]
    · rcases List.mem_cons.mp h with h1 | h2
      · exact absurd h1.symm hc
      · simp only [firstIdx, if_neg hc, List.take_succ_cons, List.drop_succ_cons,
          List.cons_append, List.cons.injEq, true_and]
        exact ih h2

theorem firstIdx_take_not_mem (d : Char) (l : List Char) :
    d ∉ l.take (firstIdx d l) := by
  induction l with
  | nil => simp [firstIdx]
  | cons c rest ih =>
    simp only [firstIdx]
    split
    · simp
    · rename_i hc
      simp only [List.take_succ_cons, List.mem_cons, not_or]
      exact ⟨fun hd => hc hd.symm, ih⟩

theorem splitList_cons_self (d : Char) (rest : List Char) :
    splitList d (d :: rest) = [] :: splitList d rest := by
  simp [splitList]

theorem splitList_cons_ne (d c : Char) (rest : List Char) (hc : c ≠ d) :
    splitList d (c :: rest) =
      match splitList d rest with
      | [] => [[c]]
      | g :: gs => (c :: g) :: gs := by
  simp [splitList, hc]

theorem splitList_ne_nil (d : Char) (l : List Char) : splitList d l ≠ [] := by
  induction l with
  | nil => simp [splitList]
  | cons c rest ih =>
    by_cases hc : c = d
    · subst hc; rw [splitList_cons_self]; simp
    · rw [splitList_cons_ne d c rest hc]
      cases h : splitList d rest with
      | nil => simp
      | cons g gs => simp

theorem splitList_length (d : Char) (l : List Char) :
    (splitList d l).length = l.count d + 1 := by
  induction l with
  | nil => simp [splitList]
  | cons c rest ih =>
    by_cases hc : c = d
    · subst hc
      rw [splitList_cons_self]
      simp only [List.length_cons, List.count_cons_self, ih]
    · rw [splitList_cons_ne d c rest hc]
      cases h : splitList d rest with
      | nil => exact absurd h (splitList_ne_nil d rest)
      | cons g gs =>
        have hl := ih
        rw [h] at hl
        simp only [List.length_cons] at hl ⊢
        rw [List.count_cons_of_ne (fun hd => hc hd.symm)]
        omega

theorem joinWith_splitList (d : Char) (l : List Char) :
    joinWith d (splitList d l) = l := by
  induction l with
  | nil => simp [splitList, joinWith]
  | cons c rest ih =>
    by_cases hc : c = d
    · subst hc
      rw [splitList_cons_self]
      cases h : splitList c rest with
      | nil => exact absurd h (splitList_ne_nil c rest)
      | cons g gs =>
        rw [h] at ih
        simp only [joinWith, List.nil_append, List.cons.injEq, true_and]
        exact ih
    · rw [splitList_cons_ne d c rest hc]
      cases h : splitList d rest with
      | nil => exact absurd h (splitList_ne_nil d rest)
      | cons g gs =>
        rw [h] at ih
        cases gs with
        | nil => simp only [joinWith] at ih ⊢; rw [ih]
        | cons g2 gs2 => simp only [joinWith, List.cons_append] at ih ⊢; rw [ih]

theorem splitList_append_cons (d : Char) (a b : List Char) (ha : d ∉ a) :
    splitList d (a ++ d :: b) = a :: splitList d b := by
  induction a with
  | nil => simp [splitList]
  | cons x a' ih =>
    simp only [List.mem_cons, not_or] at ha
    rw [List.cons_append, splitList_cons_ne d x _ (fun hx => ha.1 hx.symm), ih ha.2]

theorem splitList_of_not_mem (d : Char) (l : List Char) (h : d ∉ l) :
    splitList d l = [l] := by
  induction l with
  | nil => simp [splitList]
  | cons c rest ih =>
    simp only [List.mem_cons, not_or] at h
    rw [splitList_cons_ne d c rest (fun hc => h.1 hc.symm), ih h.2]

theorem collectN_eq_splitList (s : List Char) (d : Char) :
    ∀ (fuel start : Nat), start ≤ s.length → s.length - start + 2 ≤ fuel →
      collectN s d fuel ⟨start, findFrom s d start, false⟩ = splitList d (s.drop start) := by
  intro fuel
  induction fuel with
  | zero => intro start h1 h2; omega
  | succ f ih =>
    intro start hs hf
    have hend : mkIter s d true = ⟨0, 0, true⟩ := by
      simp [mkIter]
    simp only [collectN, hend, iterEq]
    rw [if_neg (by simp)]
    simp only [iterDeref, iterNext]
    have hfi : findFrom s d start = start + firstIdx d (s.drop start) := rfl
    by_cases hmem : d ∈ s.drop start
    · -- delimiter found: one segment then recurse past it
      have hlt : firstIdx d (s.drop start) < (s.drop start).length :=
        firstIdx_lt_of_mem d _ hmem
      have hdroplen : (s.drop start).length = s.length - start := by
        simp [List.length_drop]
      have hstep : ¬ s.length < findFrom s d start + 1 := by
        rw [hfi]; omega
      rw [if_neg hstep]
      have hnext : findFrom s d start + 1 ≤ s.length := by rw [hfi]; omega
      have hdd : s.drop (findFrom s d start + 1) = (s.drop start).drop (firstIdx d (s.drop start) + 1) := by
        rw [List.drop_drop, hfi]
        congr 1
      have ihx := ih (findFrom s d start + 1) hnext (by rw [hfi]; omega)
      rw [ihx, hdd]
      have hsub : findFrom s d start - start = firstIdx d (s.drop start) := by
        rw [hfi]; omega
      rw [hsub]
      have hdecomp := firstIdx_decomp d (s.drop start) hmem
      have hnd := firstIdx_take_not_mem d (s.drop start)
      calc (s.drop start).take (firstIdx d (s.drop start)) ::
            splitList d ((s.drop start).drop (firstIdx d (s.drop start) + 1))
          = splitList d ((s.drop start).take (firstIdx d (s.drop start)) ++
              d :: (s.drop start).drop (firstIdx d (s.drop start) + 1)) := by
            rw [splitList_append_cons d _ _ hnd]
        _ = splitList d (s.drop start) := by rw [← hdecomp]
    · -- no delimiter left: the final segment, then the cursor exhausts
      have hfi2 : firstIdx d (s.drop start) = (s.drop start).length :=
        firstIdx_of_not_mem d _ hmem
      have hdroplen : (s.drop start).length = s.length - start := by
        simp [List.length_drop]
      have heq : findFrom s d start = s.length := by
        rw [hfi, hfi2, hdroplen]; omega
      have hstep : s.length < findFrom s d start + 1 := by omega
      rw [if_pos hstep]
      have hsub : findFrom s d start - start = (s.drop start).length := by
        rw [heq, hdroplen]
      rw [hsub, List.take_length]
      have hf1 : ∃ f2, f = f2 + 1 := ⟨f - 1, by omega⟩
      rcases hf1 with ⟨f2, rfl⟩
      simp only [collectN, iterEq, hend]
      rw [if_pos (by simp)]
      rw [splitList_of_not_mem d _ hmem]

theorem segments_eq_splitList (s : List Char) (d : Char) (hs : s ≠ []) :
    segments s d = splitList d s := by
  have hlive : mkIter s d false = ⟨0, findFrom s d 0, false⟩ := by
    simp [mkIter, hs]
  rw [segments, hlive]
  have := collectN_eq_splitList s d (s.length + 2) 0 (by omega) (by omega)
  simpa using this

theorem segments_nil (d : Char) : segments [] d = [] := by
  simp [segments, mkIter, collectN, iterEq]

/-! ## Claims C3, C4 (splitter counting and round-trip) -/

/-- C3: iterating `split(s, d)` from `begin()` to `end()` yields exactly
`count(s, d) + 1` segments for non-empty `s`, and zero segments for the
empty input. -/
theorem split_segment_count (s : List Char) (d : Char) :
    (segments s d).length = if s = [] then 0 else s.count d + 1 := by
  by_cases hs : s = []
  · subst hs; simp [segments_nil]
  · rw [if_neg hs, segments_eq_splitList s d hs, splitList_length]

/-- C4: concatenating the yielded segments with one copy of the delimiter
re-inserted between consecutive segments reconstructs the input exactly. -/
theorem split_roundtrip (s : List Char) (d : Char) :
    joinWith d (segments s d) = s := by
  by_cases hs : s = []
  · subst hs; simp [segments_nil, joinWith]
  · rw [segments_eq_splitList s d hs, joinWith_splitList]

/-! ## Claims C7, C9, C10 (cursor equality, invariant, exhaustion) -/

/-- C7 counterexample: over `"a,b"` split on `','`, the begin cursor and
its successor are two live cursors at different pending segments, yet
`operator==` reports them equal, refuting the claimed boundary-sensitive
equality. -/
theorem iter_eq_counterexample :
    iterEq (mkIter ("a,b".toList) ',' false)
        (iterNext ("a,b".toList) ',' (mkIter ("a,b".toList) ',' false)) = true ∧
    (mkIter ("a,b".toList) ',' false).isAtEnd = false ∧
    (iterNext ("a,b".toList) ',' (mkIter ("a,b".toList) ',' false)).isAtEnd = false ∧
    (mkIter ("a,b".toList) ',' false).start ≠
      (iterNext ("a,b".toList) ',' (mkIter ("a,b".toList) ',' false)).start := by
  decide

/-- C7 (amended): `operator==` compares only the exhausted flags — two
cursors are equal iff both are exhausted or both are not exhausted,
regardless of their segment boundaries. -/
theorem iter_eq_flag_only (it1 it2 : Iter) :
    iterEq it1 it2 = true ↔
      (it1.isAtEnd = true ∧ it2.isAtEnd = true) ∨
      (it1.isAtEnd = false ∧ it2.isAtEnd = false) := by
  cases h1 : it1.isAtEnd <;> cases h2 : it2.isAtEnd <;> simp [iterEq, h1, h2]

/-- One step preserves the view-range invariant on any live result. -/
theorem iterNext_invariant (s : List Char) (d : Char) (it : Iter)
    (h : (iterNext s d it).isAtEnd = false) :
    (iterNext s d it).start ≤ (iterNext s d it).stop ∧
      (iterNext s d it).stop ≤ s.length := by
  by_cases hc : s.length < it.stop + 1
  · exfalso
    simp [iterNext, hc] at h
  · have he : iterNext s d it = ⟨it.stop + 1, findFrom s d (it.stop + 1), it.isAtEnd⟩ := by
      simp [iterNext, hc]
    rw [he]
    refine ⟨Nat.le_add_right _ _, ?_⟩
    show findFrom s d (it.stop + 1) ≤ s.length
    have h2 := firstIdx_le_length d (s.drop (it.stop + 1))
    have h3 : (s.drop (it.stop + 1)).length = s.length - (it.stop + 1) := by
      simp [List.length_drop]
    simp only [findFrom]
    omega

/-- C9: every cursor state reachable from `begin()` by repeated
increments satisfies, while not exhausted, the View-range invariant
`0 ≤ start ≤ end ≤ length(source)`, so dereferencing yields a
well-defined sub-range. -/
theorem reachable_cursor_invariant (s : List Char) (d : Char) (n : Nat)
    (h : (iterNextN s d n (mkIter s d false)).isAtEnd = false) :
    0 ≤ (iterNextN s d n (mkIter s d false)).start ∧
    (iterNextN s d n (mkIter s d false)).start ≤ (iterNextN s d n (mkIter s d false)).stop ∧
    (iterNextN s d n (mkIter s d false)).stop ≤ s.length := by
  cases n with
  | zero =>
    simp only [iterNextN] at h ⊢
    by_cases hs : s.isEmpty
    · exfalso
      simp [mkIter, hs] at h
    · have he : mkIter s d false = ⟨0, findFrom s d 0, false⟩ := by
        simp [mkIter, hs]
      rw [he]
      refine ⟨Nat.zero_le _, Nat.zero_le _, ?_⟩
      show findFrom s d 0 ≤ s.length
      have h2 := firstIdx_le_length d (s.drop 0)
      simp only [List.drop_zero] at h2
      simp only [findFrom, List.drop_zero, Nat.zero_add]
      omega
  | succ m =>
    simp only [iterNextN] at h ⊢
    have := iterNext_invariant s d (iterNextN s d m (mkIter s d false)) h
    exact ⟨Nat.zero_le _, this.1, this.2⟩

/-- C9 witness: after one increment over `"a,b"` the cursor is live and
the invariant holds there. -/
theorem reachable_cursor_invariant_witness :
    (iterNextN ("a,b".toList) ',' 1 (mkIter ("a,b".toList) ',' false)).isAtEnd = false ∧
    (0 ≤ (iterNextN ("a,b".toList) ',' 1 (mkIter ("a,b".toList) ',' false)).start ∧
     (iterNextN ("a,b".toList) ',' 1 (mkIter ("a,b".toList) ',' false)).start ≤
       (iterNextN ("a,b".toList) ',' 1 (mkIter ("a,b".toList) ',' false)).stop ∧
     (iterNextN ("a,b".toList) ',' 1 (mkIter ("a,b".toList) ',' false)).stop ≤
       ("a,b".toList).length) :=
  ⟨by decide, reachable_cursor_invariant ("a,b".toList) ',' 1 (by decide)⟩

/-- C10: the increment step never clears the exhausted flag, so an
exhausted cursor stays exhausted after any number of increments and
still compares equal to the end sentinel. -/
theorem exhausted_is_absorbing (s : List Char) (d : Char) (n : Nat) (it : Iter)
    (h : it.isAtEnd = true) :
    (iterNextN s d n it).isAtEnd = true ∧
      iterEq (iterNextN s d n it) (mkIter s d true) = true := by
  have hflag : ∀ m, (iterNextN s d m it).isAtEnd = true := by
    intro m
    induction m with
    | zero => simpa [iterNextN] using h
    | succ k ih =>
      simp only [iterNextN, iterNext]
      split
      · rfl
      · simpa using ih
  refine ⟨hflag n, ?_⟩
  simp [iterEq, hflag n, mkIter]

/-- C10 witness: the end sentinel of `"a,b"` split on `','`, incremented
twice, is still exhausted and equal to the sentinel. -/
theorem exhausted_is_absorbing_witness :
    (mkIter ("a,b".toList) ',' true).isAtEnd = true ∧
    ((iterNextN ("a,b".toList) ',' 2 (mkIter ("a,b".toList) ',' true)).isAtEnd = true ∧
      iterEq (iterNextN ("a,b".toList) ',' 2 (mkIter ("a,b".toList) ',' true))
        (mkIter ("a,b".toList) ',' true) = true) :=
  ⟨by decide, exhausted_is_absorbing ("a,b".toList) ',' 2 (mkIter ("a,b".toList) ',' true) (by decide)⟩

/-! ## Digit accumulation lemmas -/

theorem valAcc_cons (a : Nat) (c : Char) (l : List Char) :
    valAcc a (c :: l) = valAcc (a * 10 + digitVal c) l := rfl

theorem le_valAcc (l : List Char) : ∀ a, a ≤ valAcc a l := by
  induction l with
  | nil => intro a; simp [valAcc]
  | cons c rest ih =>
    intro a
    rw [valAcc_cons]
    calc a ≤ a * 10 + digitVal c := by omega
      _ ≤ valAcc (a * 10 + digitVal c) rest := ih _

theorem valAcc_eq_pow (l : List Char) : ∀ a, valAcc a l = a * 10 ^ l.length + valAcc 0 l := by
  induction l with
  | nil => intro a; simp [valAcc]
  | cons c rest ih =>
    intro a
    rw [valAcc_cons, valAcc_cons, ih (a * 10 + digitVal c), ih (0 * 10 + digitVal c)]
    simp only [List.length_cons]
    ring

theorem pow_le_valAcc (l : List Char) (a : Nat) : a * 10 ^ l.length ≤ valAcc a l := by
  rw [valAcc_eq_pow]
  omega

theorem digitVal_le_9 {c : Char} (h : isDigit c = true) : digitVal c ≤ 9 := by
  simp only [isDigit, decide_eq_true_eq] at h
  simp only [digitVal]
  omega

theorem char_of_toNat_eq {c d : Char} (h : c.toNat = d.toNat) : c = d :=
  Char.eq_of_val_eq (UInt32.ext h)

theorem digitVal_zero_iff {c : Char} (h : isDigit c = true) : digitVal c = 0 ↔ c = '0' := by
  simp only [isDigit, decide_eq_true_eq, charVal] at h
  constructor
  · intro h0
    simp only [digitVal, charVal] at h0
    have hn : c.toNat = 48 := by omega
    exact char_of_toNat_eq (by rw [hn]; rfl)
  · intro h0
    subst h0
    rfl

/-! ## Group-level IPv4 lemmas -/

theorem groupScan_zero_one (g : List Char) (hg : g ≠ []) : groupScan g 0 1 = none := by
  cases g with
  | nil => exact absurd rfl hg
  | cons c rest => simp [groupScan]

theorem groupScan_pos (g : List Char) :
    ∀ co dc, 1 ≤ co → co ≤ 255 → 1 ≤ dc → dc ≤ 3 →
      groupScan g co dc =
        if g.all isDigit = true ∧ dc + g.length ≤ 3 ∧ valAcc co g ≤ 255
        then some (valAcc co g, dc + g.length) else none := by
  induction g with
  | nil =>
    intro co dc h1 h2 h3 h4
    rw [groupScan, if_pos]
    · simp [valAcc]
    · exact ⟨by simp, by simpa using h4, by simpa [valAcc] using h2⟩
  | cons c rest ih =>
    intro co dc h1 h2 h3 h4
    by_cases hd : isDigit c = true
    · rw [groupScan, if_pos hd, if_neg (by omega)]
      by_cases hover : 255 < co * 10 + digitVal c
      · rw [if_pos (Or.inr hover)]
        have hv : 255 < valAcc co (c :: rest) := by
          rw [valAcc_cons]
          exact Nat.lt_of_lt_of_le hover (le_valAcc rest _)
        rw [if_neg]
        intro hcond
        omega
      · by_cases hdc : 3 < dc + 1
        · rw [if_pos (Or.inl hdc)]
          rw [if_neg]
          intro hcond
          have := hcond.2.1
          simp only [List.length_cons] at this
          omega
        · rw [if_neg (by omega)]
          have hrec := ih (co * 10 + digitVal c) (dc + 1) (by omega) (by omega) (by omega) (by omega)
          rw [hrec]
          by_cases hcond : rest.all isDigit = true ∧ dc + 1 + rest.length ≤ 3 ∧
              valAcc (co * 10 + digitVal c) rest ≤ 255
          · rw [if_pos hcond, if_pos]
            · rw [valAcc_cons]
              have hlen : dc + (c :: rest).length = dc + 1 + rest.length := by
                simp only [List.length_cons]; omega
              rw [hlen]
            · refine ⟨by simp [hd, hcond.1], ?_, ?_⟩
              · simp only [List.length_cons]; omega
              · rw [valAcc_cons]; exact hcond.2.2
          · rw [if_neg hcond, if_neg]
            intro hc2
            apply hcond
            refine ⟨?_, ?_, ?_⟩
            · have := hc2.1
              simp only [List.all_cons, Bool.and_eq_true] at this
              exact this.2
            · have := hc2.2.1
              simp only [List.length_cons] at this
              omega
            · have := hc2.2.2
              rw [valAcc_cons] at this
              exact this
    · rw [groupScan, if_neg hd, if_neg]
      intro hc2
      have := hc2.1
      simp only [List.all_cons, Bool.and_eq_true] at this
      exact hd this.1

theorem groupScan_fresh (g : List Char) (hg : g ≠ []) :
    groupScan g 0 0 =
      if isOctetGroup g = true then some (decimalVal g, g.length) else none := by
  cases g with
  | nil => exact absurd rfl hg
  | cons c rest =>
    by_cases hd : isDigit c = true
    · have hstep : groupScan (c :: rest) 0 0 = groupScan rest (digitVal c) 1 := by
        have h9 := digitVal_le_9 hd
        rw [groupScan, if_pos hd, if_neg (by omega), if_neg (by omega)]
        have : 0 * 10 + digitVal c = digitVal c := by omega
        rw [this]
      rw [hstep]
      by_cases hz : digitVal c = 0
      · have hc0 : c = '0' := (digitVal_zero_iff hd).mp hz
        subst hc0
        cases rest with
        | nil => decide
        | cons r rs =>
          rw [hz, groupScan_zero_one _ (by simp)]
          rw [if_neg]
          intro hoct
          have := of_decide_eq_true hoct
          rcases this.2.2.1 with hlen | hhead
          · simp at hlen
          · simp at hhead
      · have h1 : 1 ≤ digitVal c := by omega
        have h9 := digitVal_le_9 hd
        rw [groupScan_pos rest (digitVal c) 1 h1 (by omega) le_rfl (by omega)]
        have hdv : decimalVal (c :: rest) = valAcc (digitVal c) rest := by
          simp only [decimalVal, valAcc_cons]
          have : 0 * 10 + digitVal c = digitVal c := by omega
          rw [this]
        have hc0 : c ≠ '0' := by
          intro hc
          exact hz ((digitVal_zero_iff hd).mpr hc)
        by_cases hcond : rest.all isDigit = true ∧ valAcc (digitVal c) rest ≤ 255
        · have hlen : rest.length ≤ 2 := by
            by_contra hlen
            have h3 : 3 ≤ rest.length := by omega
            have hp : 1000 ≤ 10 ^ rest.length := by
              calc (1000 : Nat) = 10 ^ 3 := by norm_num
                _ ≤ 10 ^ rest.length := Nat.pow_le_pow_right (by omega) h3
            have := pow_le_valAcc rest (digitVal c)
            have hbig : 1000 ≤ valAcc (digitVal c) rest := by
              calc (1000 : Nat) ≤ 10 ^ rest.length := hp
                _ = 1 * 10 ^ rest.length := by omega
                _ ≤ digitVal c * 10 ^ rest.length := by
                    exact Nat.mul_le_mul_right _ h1
                _ ≤ valAcc (digitVal c) rest := pow_le_valAcc rest _
            omega
          rw [if_pos ⟨hcond.1, by omega, hcond.2⟩]
          rw [if_pos, hdv]
          · simp only [List.length_cons]
            have : 1 + rest.length = rest.length + 1 := by omega
            rw [this]
          · apply decide_eq_true
            refine ⟨by simp, by simp [hd, hcond.1], Or.inr (by simp [hc0]), ?_⟩
            rw [hdv]
            exact hcond.2
        · rw [if_neg (by intro hc2; exact hcond ⟨hc2.1, hc2.2.2⟩)]
          rw [if_neg]
          intro hoct
          have hp := of_decide_eq_true hoct
          apply hcond
          constructor
          · have := hp.2.1
            simp only [List.all_cons, Bool.and_eq_true] at this
            exact this.2
          · rw [← hdv]
            exact hp.2.2.2
    · rw [groupScan, if_neg hd, if_neg]
      intro hoct
      have hp := of_decide_eq_true hoct
      have := hp.2.1
      simp only [List.all_cons, Bool.and_eq_true] at this
      exact hd this.1

/-! ## Whole-string IPv4 lemmas -/

theorem ipv4Scan_split (a : List Char) (hnd : '.' ∉ a) :
    ∀ rest oc co dc, ipv4Scan (a ++ '.' :: rest) oc co dc =
      match groupScan a co dc with
      | none => false
      | some (co2, dc2) =>
        if dc2 = 0 ∨ 255 < co2 then false else ipv4Scan rest (oc + 1) 0 0 := by
  induction a with
  | nil =>
    intro rest oc co dc
    simp only [List.nil_append, groupScan]
    rw [ipv4Scan, if_pos rfl]
  | cons c a2 ih =>
    intro rest oc co dc
    simp only [List.mem_cons, not_or] at hnd
    simp only [List.cons_append]
    rw [ipv4Scan, if_neg (fun h => hnd.1 h.symm), groupScan]
    by_cases hd : isDigit c = true
    · rw [if_pos hd, if_pos hd]
      by_cases hlz : dc = 1 ∧ co = 0
      · rw [if_pos hlz, if_pos hlz]
      · rw [if_neg hlz, if_neg hlz]
        by_cases hover : 3 < dc + 1 ∨ 255 < co * 10 + digitVal c
        · rw [if_pos hover, if_pos hover]
        · rw [if_neg hover, if_neg hover]
          exact ih hnd.2 rest oc _ _
    · rw [if_neg hd, if_neg hd]

theorem ipv4Scan_last (a : List Char) (hnd : '.' ∉ a) :
    ∀ oc co dc, ipv4Scan a oc co dc =
      match groupScan a co dc with
      | none => false
      | some (co2, dc2) => decide (oc = 3 ∧ 0 < dc2 ∧ co2 ≤ 255) := by
  induction a with
  | nil =>
    intro oc co dc
    simp only [groupScan]
    rw [ipv4Scan]
  | cons c a2 ih =>
    intro oc co dc
    simp only [List.mem_cons, not_or] at hnd
    rw [ipv4Scan, if_neg (fun h => hnd.1 h.symm), groupScan]
    by_cases hd : isDigit c = true
    · rw [if_pos hd, if_pos hd]
      by_cases hlz : dc = 1 ∧ co = 0
      · rw [if_pos hlz, if_pos hlz]
      · rw [if_neg hlz, if_neg hlz]
        by_cases hover : 3 < dc + 1 ∨ 255 < co * 10 + digitVal c
        · rw [if_pos hover, if_pos hover]
        · rw [if_neg hover, if_neg hover]
          exact ih hnd.2 oc _ _
    · rw [if_neg hd, if_neg hd]

theorem isOctetGroup_nil : isOctetGroup [] = false := by decide

theorem ipv4Scan_split_octet (a : List Char) (hnd : '.' ∉ a) (hanil : a ≠ [])
    (hoct : isOctetGroup a = true) (b : List Char) (oc : Nat) :
    ipv4Scan (a ++ '.' :: b) oc 0 0 = ipv4Scan b (oc + 1) 0 0 := by
  rw [ipv4Scan_split a hnd b oc 0 0, groupScan_fresh a hanil, if_pos hoct]
  show (if a.length = 0 ∨ 255 < decimalVal a then false else ipv4Scan b (oc + 1) 0 0) =
    ipv4Scan b (oc + 1) 0 0
  have hp := of_decide_eq_true hoct
  rw [if_neg]
  push_neg
  constructor
  · cases a with
    | nil => exact absurd rfl hanil
    | cons x xs => simp
  · exact hp.2.2.2

theorem ipv4Scan_split_bad (a : List Char) (hnd : '.' ∉ a)
    (hbad : isOctetGroup a = false) (b : List Char) (oc : Nat) :
    ipv4Scan (a ++ '.' :: b) oc 0 0 = false := by
  rw [ipv4Scan_split a hnd b oc 0 0]
  by_cases hanil : a = []
  · subst hanil
    show (if (0 : Nat) = 0 ∨ 255 < (0 : Nat) then false
      else ipv4Scan b (oc + 1) 0 0) = false
    rw [if_pos (Or.inl rfl)]
  · rw [groupScan_fresh a hanil, hbad]
    simp

theorem ipv4Scan_last_octet (a : List Char) (hnd : '.' ∉ a) (hanil : a ≠ [])
    (hoct : isOctetGroup a = true) (oc : Nat) :
    ipv4Scan a oc 0 0 = decide (oc = 3) := by
  rw [ipv4Scan_last a hnd oc 0 0, groupScan_fresh a hanil, if_pos hoct]
  show decide (oc = 3 ∧ 0 < a.length ∧ decimalVal a ≤ 255) = decide (oc = 3)
  have hp := of_decide_eq_true hoct
  have hlen : 0 < a.length := by
    cases a with
    | nil => exact absurd rfl hanil
    | cons x xs => simp
  apply decide_eq_decide.mpr
  constructor
  · intro h; exact h.1
  · intro h; exact ⟨h, hlen, hp.2.2.2⟩

theorem ipv4Scan_last_bad (a : List Char) (hnd : '.' ∉ a)
    (hbad : isOctetGroup a = false) (oc : Nat) :
    ipv4Scan a oc 0 0 = false := by
  rw [ipv4Scan_last a hnd oc 0 0]
  by_cases hanil : a = []
  · subst hanil
    show decide (oc = 3 ∧ 0 < 0 ∧ (0 : Nat) ≤ 255) = false
    simp
  · rw [groupScan_fresh a hanil, hbad]
    rfl

theorem ipv4Scan_spec (n : Nat) : ∀ l oc, l.length ≤ n →
    (ipv4Scan l oc 0 0 = true ↔
      oc + (splitList '.' l).length = 4 ∧ ∀ g ∈ splitList '.' l, isOctetGroup g = true) := by
  induction n with
  | zero =>
    intro l oc hl
    have hnil : l = [] := List.length_eq_zero.mp (by omega)
    subst hnil
    rw [ipv4Scan]
    simp only [splitList, decide_eq_true_eq, List.length_cons, List.length_nil,
      List.mem_singleton]
    constructor
    · intro h; omega
    · intro h
      have := h.2 [] rfl
      rw [isOctetGroup_nil] at this
      exact absurd this (by simp)
  | succ m ih =>
    intro l oc hl
    by_cases hdot : '.' ∈ l
    · have hdecomp := firstIdx_decomp '.' l hdot
      have hnd := firstIdx_take_not_mem '.' l
      have hlt := firstIdx_lt_of_mem '.' l hdot
      generalize ha : l.take (firstIdx '.' l) = a at hdecomp hnd
      generalize hb : l.drop (firstIdx '.' l + 1) = b at hdecomp
      have hsplit : splitList '.' l = a :: splitList '.' b := by
        rw [hdecomp]
        exact splitList_append_cons '.' a b hnd
      have hblen : b.length ≤ m := by
        have h1 : l.length = a.length + 1 + b.length := by
          conv_lhs => rw [hdecomp]
          simp only [List.length_append, List.length_cons]
          omega
        omega
      by_cases hoct : isOctetGroup a = true
      · have hanil : a ≠ [] := by
          intro h0
          rw [h0, isOctetGroup_nil] at hoct
          exact absurd hoct (by simp)
        have hscan : ipv4Scan l oc 0 0 = ipv4Scan b (oc + 1) 0 0 := by
          conv_lhs => rw [hdecomp]
          exact ipv4Scan_split_octet a hnd hanil hoct b oc
        rw [hscan, ih b (oc + 1) hblen, hsplit]
        simp only [List.length_cons, List.mem_cons]
        constructor
        · rintro ⟨hc, hall⟩
          refine ⟨by omega, ?_⟩
          rintro g (rfl | hg)
          · exact hoct
          · exact hall g hg
        · rintro ⟨hc, hall⟩
          refine ⟨by omega, ?_⟩
          intro g hg
          exact hall g (Or.inr hg)
      · have hbad : isOctetGroup a = false := by
          cases h0 : isOctetGroup a
          · rfl
          · exact absurd h0 hoct
        have hscan : ipv4Scan l oc 0 0 = false := by
          conv_lhs => rw [hdecomp]
          exact ipv4Scan_split_bad a hnd hbad b oc
        rw [hscan, hsplit]
        simp only [Bool.false_eq_true, false_iff, not_and, List.mem_cons]
        intro hcount
        intro hall
        exact hoct (hall a (Or.inl rfl))
    · rw [splitList_of_not_mem '.' l hdot]
      by_cases hlnil : l = []
      · subst hlnil
        rw [ipv4Scan]
        simp only [decide_eq_true_eq, List.length_cons, List.length_nil,
          List.mem_singleton]
        constructor
        · intro h; omega
        · intro h
          have := h.2 [] rfl
          rw [isOctetGroup_nil] at this
          exact absurd this (by simp)
      · by_cases hoct : isOctetGroup l = true
        · rw [ipv4Scan_last_octet l hdot hlnil hoct oc]
          have hp := of_decide_eq_true hoct
          simp only [decide_eq_true_eq, List.length_cons, List.length_nil,
            List.mem_singleton]
          constructor
          · intro h3
            refine ⟨by omega, ?_⟩
            rintro g rfl
            exact hoct
          · rintro ⟨hc, _⟩
            omega
        · have hbad : isOctetGroup l = false := by
            cases h0 : isOctetGroup l
            · rfl
            · exact absurd h0 hoct
          rw [ipv4Scan_last_bad l hdot hbad oc]
          simp only [Bool.false_eq_true, false_iff, not_and, List.mem_singleton]
          intro hcount hall
          exact hoct (hall l rfl)

/-! ## Claim C1 (IPv4 validator matches the dotted-quad grammar) -/

/-- C1: `isIPv4Address(s)` returns true iff `s` is non-empty, of length
at most 15, and splits on '.' into exactly 4 groups (exactly 3 dots —
leading/trailing/double dots produce an empty group, which is rejected),
each group a decimal numeral in [0,255] with no leading zero ("0" is
allowed, "01" is not). -/
theorem ipv4_matches_spec (s : List Char) : isIPv4Address s = true ↔ ipv4Spec s := by
  rw [isIPv4Address, ipv4Spec]
  by_cases h1 : s = [] ∨ 15 < s.length
  · rw [if_pos h1]
    constructor
    · intro hfalse
      exact absurd hfalse (by simp)
    · rintro ⟨hne, hlen, _, _⟩
      rcases h1 with hnil | hl
      · exact absurd hnil hne
      · omega
  · rw [if_neg h1]
    push_neg at h1
    rw [ipv4Scan_spec s.length s 0 le_rfl]
    constructor
    · rintro ⟨hc, hall⟩
      exact ⟨h1.1, h1.2, by omega, hall⟩
    · rintro ⟨_, _, hc, hall⟩
      exact ⟨by omega, hall⟩

/-! ## Claim C2 (IPv6 group-count rule) — code bug -/

/-- C2 evaluation at the failing input: `"1:2:3:4:5:6:7%eth0"` is accepted
by `isIPv6Address` although its scanned portion (before the zone '%') has
six ':' separators — hence seven hex groups — no '::' compression pair and
no embedded-IPv4 dot. The claim (exactly 8 groups when no '::' is present)
is the spec's stated rule; the code counts the final group twice, once at
the '%' break and once in the post-loop increment, whose guard only
excludes the embedded-IPv4 case. -/
theorem ipv6_group_count_code_bug :
    isIPv6Address ("1:2:3:4:5:6:7%eth0".toList) = true ∧
    (("1:2:3:4:5:6:7%eth0".toList).takeWhile (fun c => !(c == '%'))).count ':' = 6 ∧
    hasColonPair ("1:2:3:4:5:6:7%eth0".toList) = false ∧
    ("1:2:3:4:5:6:7%eth0".toList).all (fun c => !(c == '.')) = true := by
  decide

/-! ## Claim C6 (zone-ID suffix preserves IPv6 validity) — code bug -/

/-- C6 evaluation at the failing input: `"1:2:3:4:5:6:7:8"` is a valid
IPv6 address containing no '%', the zone `"eth0"` is non-empty, the
combined length is within 45, yet appending `"%eth0"` makes
`isIPv6Address` reject — the final group is counted twice (at the '%'
break and by the post-loop increment), giving 9 ≠ 8. -/
theorem ipv6_zone_append_code_bug :
    isIPv6Address ("1:2:3:4:5:6:7:8".toList) = true ∧
    ("1:2:3:4:5:6:7:8".toList).all (fun c => !(c == '%')) = true ∧
    ("eth0".toList) ≠ [] ∧
    ("1:2:3:4:5:6:7:8".toList ++ '%' :: "eth0".toList).length ≤ 45 ∧
    isIPv6Address ("1:2:3:4:5:6:7:8".toList ++ '%' :: "eth0".toList) = false := by
  decide

/-! ## Port and numeric-parse lemmas -/

theorem portGo_spec (l : List Char) :
    ∀ pv, pv ≤ 65535 →
      (portGo l pv = true ↔ l.all isDigit = true ∧ valAcc pv l ≤ 65535) := by
  induction l with
  | nil =>
    intro pv hpv
    rw [portGo]
    simp [valAcc, hpv]
  | cons c rest ih =>
    intro pv hpv
    rw [portGo]
    by_cases hd : isDigit c = true
    · rw [if_neg (by simp [hd])]
      by_cases hover : 65535 < pv * 10 + digitVal c
      · rw [if_pos hover]
        have hbig : 65535 < valAcc pv (c :: rest) := by
          rw [valAcc_cons]
          exact Nat.lt_of_lt_of_le hover (le_valAcc rest _)
        constructor
        · intro h; exact absurd h (by simp)
        · intro h; omega
      · rw [if_neg hover]
        rw [ih (pv * 10 + digitVal c) (by omega), valAcc_cons]
        simp [hd]
    · rw [if_pos (by simpa using hd)]
      constructor
      · intro h; exact absurd h (by simp)
      · intro h
        have := h.1
        simp only [List.all_cons, Bool.and_eq_true] at this
        exact absurd this.1 hd

theorem isValidPort_spec (s : List Char) :
    isValidPort s = true ↔
      s ≠ [] ∧ s.length ≤ 5 ∧ s.all isDigit = true ∧ decimalVal s ≤ 65535 := by
  rw [isValidPort]
  by_cases h1 : s = [] ∨ 5 < s.length
  · rw [if_pos h1]
    constructor
    · intro h; exact absurd h (by simp)
    · rintro ⟨hne, hlen, _, _⟩
      rcases h1 with hnil | hl
      · exact absurd hnil hne
      · omega
  · rw [if_neg h1]
    push_neg at h1
    rw [portGo_spec s 0 (by omega)]
    rw [show valAcc 0 s = decimalVal s from rfl]
    constructor
    · rintro ⟨ha, hv⟩
      exact ⟨h1.1, h1.2, ha, hv⟩
    · rintro ⟨_, _, ha, hv⟩
      exact ⟨ha, hv⟩

theorem takeWhile_isDigit_eq_self (l : List Char) (h : l.all isDigit = true) :
    l.takeWhile isDigit = l := by
  induction l with
  | nil => rfl
  | cons c rest ih =>
    simp only [List.all_cons, Bool.and_eq_true] at h
    rw [List.takeWhile_cons, if_pos h.1, ih h.2]

theorem tryParseUInt_of_valid_port (s : List Char) (h : isValidPort s = true) (r0 : Nat) :
    tryParseUInt s r0 = (true, decimalVal s) ∧ decimalVal s ≤ 65535 := by
  obtain ⟨hne, hlen, hdig, hval⟩ := (isValidPort_spec s).mp h
  have htw : s.takeWhile isDigit = s := takeWhile_isDigit_eq_self s hdig
  rw [tryParseUInt, if_neg hne, htw]
  rw [if_neg hne, if_neg (by omega), if_pos rfl]
  exact ⟨rfl, hval⟩

/-! ## Claim C5 (plain host:port endpoint parsing) -/

/-- C5: for every endpoint not starting with '[', `tryParseEndpoint`
splits at the last colon; it succeeds iff a colon exists, host and port
parts are non-empty, the port part passes `isValidPort`, and the host
part passes `isIPv4Address` when it is all digits-and-dots, otherwise
`isValidHostname`; on success it yields that host and the port's numeric
value. -/
theorem endpoint_plain_spec (e h0 : List Char) (p0 : Nat) (hbr : e.head? ≠ some '[') :
    (rfindIdx ':' e = none → (tryParseEndpoint e h0 p0).1 = false) ∧
    ∀ cp, rfindIdx ':' e = some cp →
      (((tryParseEndpoint e h0 p0).1 = true) ↔
        (e.take cp ≠ [] ∧ e.drop (cp + 1) ≠ [] ∧ isValidPort (e.drop (cp + 1)) = true ∧
          (if (e.take cp).all (fun c => isDigit c || c == '.') then
            isIPv4Address (e.take cp) = true
          else isValidHostname (e.take cp) = true))) ∧
      ((tryParseEndpoint e h0 p0).1 = true →
        tryParseEndpoint e h0 p0 = (true, e.take cp, decimalVal (e.drop (cp + 1)))) := by
  by_cases he : e = []
  · subst he
    constructor
    · intro _
      rfl
    · intro cp hcp
      simp [rfindIdx] at hcp
  · have hsome : ∀ cp, rfindIdx ':' e = some cp →
        tryParseEndpoint e h0 p0 =
          (if e.take cp = [] ∨ e.drop (cp + 1) = [] then (false, e.take cp, p0)
           else if isValidPort (e.drop (cp + 1)) = false then (false, e.take cp, p0)
           else if (tryParseUInt (e.drop (cp + 1)) 0).1 = false ∨
               65535 < (tryParseUInt (e.drop (cp + 1)) 0).2 then (false, e.take cp, p0)
           else if (e.take cp).all (fun c => isDigit c || c == '.') then
             (isIPv4Address (e.take cp), e.take cp, (tryParseUInt (e.drop (cp + 1)) 0).2)
           else
             (isValidHostname (e.take cp), e.take cp,
               (tryParseUInt (e.drop (cp + 1)) 0).2)) := by
      intro cp hcp
      unfold tryParseEndpoint
      rw [if_neg he, if_neg hbr, hcp]
    constructor
    · intro hnone
      have : tryParseEndpoint e h0 p0 = (false, h0, p0) := by
        unfold tryParseEndpoint
        rw [if_neg he, if_neg hbr, hnone]
      rw [this]
    · intro cp hcp
      have heq := hsome cp hcp
      by_cases h1 : e.take cp = [] ∨ e.drop (cp + 1) = []
      · rw [if_pos h1] at heq
        constructor
        · rw [heq]
          constructor
          · intro habs
            exact absurd habs (by simp)
          · rintro ⟨hne1, hne2, _, _⟩
            rcases h1 with h1 | h1
            · exact absurd h1 hne1
            · exact absurd h1 hne2
        · intro htrue
          rw [heq] at htrue
          exact absurd htrue (by simp)
      · rw [if_neg h1] at heq
        push_neg at h1
        by_cases h2 : isValidPort (e.drop (cp + 1)) = false
        · rw [if_pos h2] at heq
          constructor
          · rw [heq]
            constructor
            · intro habs
              exact absurd habs (by simp)
            · rintro ⟨_, _, hvp, _⟩
              rw [hvp] at h2
              exact absurd h2 (by simp)
          · intro htrue
            rw [heq] at htrue
            exact absurd htrue (by simp)
        · rw [if_neg h2] at heq
          have hvpt : isValidPort (e.drop (cp + 1)) = true := by
            cases hv : isValidPort (e.drop (cp + 1))
            · exact absurd hv h2
            · rfl
          obtain ⟨hpu, hple⟩ := tryParseUInt_of_valid_port _ hvpt 0
          rw [hpu] at heq
          rw [if_neg (by
            simp only [not_or, not_lt]
            exact ⟨by simp, by simpa using hple⟩)] at heq
          by_cases h3 : (e.take cp).all (fun c => isDigit c || c == '.') = true
          · rw [if_pos h3] at heq
            constructor
            · rw [heq]
              rw [if_pos h3]
              constructor
              · intro hip
                exact ⟨h1.1, h1.2, hvpt, hip⟩
              · rintro ⟨_, _, _, hip⟩
                exact hip
            · intro htrue
              rw [heq] at htrue
              have hx : isIPv4Address (e.take cp) = true := htrue
              rw [heq, hx]
          · rw [if_neg h3] at heq
            constructor
            · rw [heq]
              rw [if_neg h3]
              constructor
              · intro hhn
                exact ⟨h1.1, h1.2, hvpt, hhn⟩
              · rintro ⟨_, _, _, hhn⟩
                exact hhn
            · intro htrue
              rw [heq] at htrue
              have hx : isValidHostname (e.take cp) = true := htrue
              rw [heq, hx]

/-- C5 witness: parsing `"example.com:8080"` succeeds with host
`"example.com"` and port 8080. -/
theorem endpoint_plain_spec_witness :
    (("example.com:8080".toList).head? ≠ some '[') ∧
    tryParseEndpoint ("example.com:8080".toList) [] 0 =
      (true, "example.com".toList, 8080) := by
  constructor
  · decide
  · have h := (endpoint_plain_spec ("example.com:8080".toList) [] 0 (by decide)).2
      11 (by decide)
    exact h.2 (by decide)

/-! ## Claim C8 (no partial success on failure) — corrected -/

/-- C8 counterexample: `tryParseEndpoint("[::1]", host, port)` returns
false (bracketed host with no port), yet the host output has been
overwritten from `"x"` to `"::1"` — the call fails but does not leave
the outputs unchanged. -/
theorem endpoint_no_partial_success_counterexample :
    (tryParseEndpoint ("[::1]".toList) ("x".toList) 7).1 = false ∧
    (tryParseEndpoint ("[::1]".toList) ("x".toList) 7).2.1 ≠ "x".toList := by
  decide

/-- C8 (amended): on failure the not-yet-assigned outputs are unchanged,
but host is assigned as soon as the bracket (or last colon) is located
and port once the port substring parses: `"[::1]"` fails leaving port
untouched yet setting host to `"::1"`, and `"[abc]:80"` fails (IPv6
validation of the host) having set both host to `"abc"` and port to 80. -/
theorem endpoint_partial_writes (h0 : List Char) (p0 : Nat) :
    tryParseEndpoint ("[::1]".toList) h0 p0 = (false, "::1".toList, p0) ∧
    tryParseEndpoint ("[abc]:80".toList) h0 p0 = (false, "abc".toList, 80) := by
  constructor
  · rfl
  · rfl
